import Mathlib

/-!
Verification of the word-count MapReduce engine in
`src/MapReduce/MapReduce/main.cpp`.

A C++ `std::string` is modelled as a `List Char`; `std::vector` as `List`;
`std::map` (ordered by `operator<`, which is lexicographic byte comparison)
as an association list kept strictly sorted by the key order `strLt`;
C++ `int` as `Int`.  The sequential semantics of one run is modelled by
explicit state passing of the intermediate aggregate; an out-of-bounds
`std::vector::operator[]` access has no defined result in C++, so the
worker is `Option`-valued and yields `none` there.
-/

namespace MapReduce

/-- A C++ `std::string`, modelled as its list of characters. -/
abbrev Str := List Char

/-- C `ispunct` in the default locale: the four ASCII punctuation blocks
`!"#$%&'()*+,-./`, `:;<=>?@`, placed at codes 33–47, 58–64, 91–96 and
123–126.  `main.cpp` line 69 calls it through `std::remove_if`. -/
def ispunct (c : Char) : Bool :=
  if (33 ≤ c.toNat ∧ c.toNat ≤ 47) ∨ (58 ≤ c.toNat ∧ c.toNat ≤ 64)
      ∨ (91 ≤ c.toNat ∧ c.toNat ≤ 96) ∨ (123 ≤ c.toNat ∧ c.toNat ≤ 126)
  then true else false

/-- C `tolower` in the default locale: shift `A`–`Z` (65–90) down by 32,
leave everything else unchanged.  `main.cpp` lines 71–72. -/
def tolower (c : Char) : Char :=
  if 65 ≤ c.toNat ∧ c.toNat ≤ 90 then Char.ofNat (c.toNat + 32) else c

/-- C `isspace` in the default locale: space (32) and `\t \n \v \f \r`
(9–13).  `operator>>` on an `istringstream` skips and stops on these. -/
def isspace (c : Char) : Bool :=
  if c.toNat = 32 ∨ (9 ≤ c.toNat ∧ c.toNat ≤ 13) then true else false

/-- Helper for `splitWs`: scan the characters, accumulating the current
token in reverse; emit it at each whitespace boundary and at the end. -/
def splitWsAux : List Char → List Char → List Str
  | [], acc => if acc = [] then [] else [acc.reverse]
  | c :: cs, acc =>
    if isspace c then
      if acc = [] then splitWsAux cs [] else acc.reverse :: splitWsAux cs []
    else splitWsAux cs (c :: acc)

/-- Whitespace tokenization of a record, as performed by the
`while (iss >> word)` loop of `map_function` (`main.cpp` line 67):
maximal runs of non-whitespace characters, in order; never empty. -/
def splitWs (s : Str) : List Str := splitWsAux s []

/-- `map_function` (`main.cpp` lines 56–79): for each extracted token,
erase punctuation (`remove_if`/`erase`), lowercase the remainder
(`transform`/`tolower`) and `push_back` the pair `(word, 1)` onto the
result vector — unconditionally, even when the stripped word is empty. -/
def map_function (input : Str) : List (Str × Int) :=
  (splitWs input).foldl
    (fun result word => result ++ [((word.filter fun c => !ispunct c).map tolower, 1)])
    []

/-- `reduce_function` (`main.cpp` lines 100–102): `std::accumulate` with
initial value `0`, i.e. a left fold of addition. -/
def reduce_function (values : List Int) : Int :=
  values.foldl (fun a b => a + b) 0

/-- Lexicographic comparison of strings, the `std::less<std::string>`
order used by `std::map` keys. -/
def strLt : Str → Str → Bool
  | _, [] => false
  | [], _ :: _ => true
  | a :: as, b :: bs =>
    if a < b then true else if b < a then false else strLt as bs

/-- The shared `std::map<std::string, std::vector<int>>
intermediate_result` (`main.cpp` line 153), modelled as an association
list strictly sorted by `strLt` on the keys. -/
abbrev Aggregate := List (Str × List Int)

/-- One synchronized `intermediate_result[pair.first].push_back(pair.second)`
(`main.cpp` line 132): `operator[]` default-constructs an empty vector for
an absent key, then the value is appended at the end of that key's vector.
On the sorted association list this inserts the key at its ordered
position. -/
def mapAppend : Aggregate → Str → Int → Aggregate
  | [], k, v => [(k, [v])]
  | (k', vs) :: rest, k, v =>
    if k = k' then (k', vs ++ [v]) :: rest
    else if strLt k k' then (k, [v]) :: (k', vs) :: rest
    else (k', vs) :: mapAppend rest k v

/-- The inner `for (const auto& pair : mapped_result)` loop of
`map_worker` (`main.cpp` lines 130–133): append every emitted pair into
the aggregate, in order. -/
def appendPairs (m : Aggregate) (ps : List (Str × Int)) : Aggregate :=
  ps.foldl (fun acc p => mapAppend acc p.1 p.2) m

/-- The record loop of `map_worker`, driven by the remaining iteration
count `fuel = end - i`.  `input_data[i]` is an unchecked
`std::vector::operator[]`; for an out-of-range index C++ assigns it no
defined result, so the model returns `none` there. -/
def map_workerGo (input_data : List Str) : Nat → Nat → Aggregate → Option Aggregate
  | 0, _, m => some m
  | fuel + 1, i, m =>
    match input_data[i]? with
    | none => none
    | some r => map_workerGo input_data fuel (i + 1) (appendPairs m (map_function r))

/-- `map_worker` (`main.cpp` lines 122–135): run `map_function` over the
records with indices in `[start, stop)` and append every emitted pair
into the aggregate. -/
def map_worker (input_data : List Str) (m : Aggregate) (start stop : Nat) :
    Option Aggregate :=
  map_workerGo input_data (stop - start) start m

/-- Start index of worker `i`'s range, `i * (input_data.size() / num_threads)`
(`main.cpp` line 166), for record count `R` and thread count `T`. -/
def partStart (R T i : Nat) : Nat := i * (R / T)

/-- End index of worker `i`'s range,
`(i == num_threads - 1) ? input_data.size() : (i + 1) * (input_data.size() / num_threads)`
(`main.cpp` line 167). -/
def partEnd (R T i : Nat) : Nat :=
  if i = T - 1 then R else (i + 1) * (R / T)

/-- The map phase of `main` (`main.cpp` lines 164–180): workers
`0, …, T-1` each run `map_worker` on their computed range over the shared
aggregate, which starts empty.  The canonical sequential schedule runs
them in index order; permuted append interleavings are treated separately. -/
def runWorkers (input_data : List Str) (T : Nat) : Option Aggregate :=
  (List.range T).foldl
    (fun acc i =>
      acc.bind fun m =>
        map_worker input_data m (partStart input_data.length T i)
          (partEnd input_data.length T i))
    (some [])

/-- The reduce loop of `main` (`main.cpp` lines 188–190): iterate the
intermediate `std::map` in its (sorted) key order and store
`reduce_function` of each value vector into `final_result` under the same
key; since the keys arrive in increasing order, the resulting `std::map`
holds exactly these entries in the same order. -/
def reducePhase (m : Aggregate) : List (Str × Int) :=
  m.map fun e => (e.1, reduce_function e.2)

/-- The whole run of `main` on a corpus with `T` threads: map phase then
reduce phase.  `none` only if a worker performed an out-of-range access. -/
def run_main (input_data : List Str) (T : Nat) : Option (List (Str × Int)) :=
  (runWorkers input_data T).map reducePhase

/-- The hardcoded corpus of `main` (`main.cpp` lines 140–145). -/
def input_data : List Str :=
  [("This is sentence one.".toList),
   ("This is sentence two.".toList),
   ("This is a sentence that ends with red.".toList),
   ("This is a sentence that ends with blue.".toList)]

/-- The value returned by `main` on normal completion
(`main.cpp` line 197: `return 0;`). -/
def main_ret : Int := 0

/-- Value stored in the aggregate for a key: the `std::map` lookup of the
vector at that key, `[]` when the key is absent. -/
def aggLookup : Aggregate → Str → List Int
  | [], _ => []
  | (k', vs) :: rest, k => if k = k' then vs else aggLookup rest k

/-- Value stored in the final result for a key, `0` when absent. -/
def finLookup : List (Str × Int) → Str → Int
  | [], _ => 0
  | (k', v) :: rest, k => if k = k' then v else finLookup rest k

/-- Normalization applied to one token by `map_function`: strip
punctuation, then lowercase. -/
def normalizeTok (w : Str) : Str :=
  (w.filter fun c => !ispunct c).map tolower

/-- Number of case-insensitive, punctuation-stripped occurrences of the
word `w` across a corpus: the number of whitespace tokens of all records
that normalize to `w`. -/
def occurrences (w : Str) (corpus : List Str) : Nat :=
  ((corpus.flatMap splitWs).filter fun t => normalizeTok t == w).length

/-- Decimal digits of a natural number, most significant first, as
`operator<<` prints an `int`. -/
def natDigits (n : Nat) : List Char :=
  if h : n < 10 then [Char.ofNat (48 + n)]
  else natDigits (n / 10) ++ [Char.ofNat (48 + n % 10)]
termination_by n
decreasing_by exact Nat.div_lt_self (by omega) (by omega)

/-- Decimal rendering of a C++ `int` by `operator<<`. -/
def intToChars (i : Int) : List Char :=
  if i < 0 then '-' :: natDigits i.natAbs else natDigits i.toNat

/-- The output loop of `main` (`main.cpp` lines 193–195): one line
`word: count` per entry of `final_result`, in iteration order. -/
def report (final : List (Str × Int)) : List Str :=
  final.foldl (fun lines e => lines ++ [e.1 ++ ':' :: ' ' :: intToChars e.2]) []

/-- Folding push_back of transformed elements equals mapping: the
accumulating loop shape shared by `map_function` and the output loop. -/
lemma foldl_push_eq_map {α β : Type} (g : α → β) :
    ∀ (l : List α) (acc : List β),
      l.foldl (fun r w => r ++ [g w]) acc = acc ++ l.map g := by
  intro l
  induction l with
  | nil => intro acc; simp
  | cons x xs ih => intro acc; simp [ih]

/-- `map_function` in closed form: one `(normalizeTok t, 1)` pair per
token, in order. -/
lemma map_function_eq_map (s : Str) :
    map_function s = (splitWs s).map fun t => (normalizeTok t, 1) := by
  simpa [map_function, normalizeTok] using
    foldl_push_eq_map (fun t => (normalizeTok t, (1 : Int))) (splitWs s) []

/-- C2 (corrected claim refuted as stated): on the punctuation-only token
`-`, `map_function` does emit an output pair, namely the empty word paired
with 1 — not nothing, as the claim states. -/
theorem map_function_punct_only_emits_pair :
    map_function (['-']) = [(([] : Str), (1 : Int))] ∧ map_function (['-']) ≠ [] := by
  constructor
  · rfl
  · intro h
    simp only [map_function] at h
    exact absurd h (by decide)

/-- C2 (amended): the Mapper splits the record on whitespace, strips
punctuation from each token, lowercases the remainder, and emits the pair
`(word, 1)` for every token unconditionally; a token consisting solely of
punctuation normalizes to the empty word and still produces the pair
`("", 1)`. -/
theorem map_function_emits_every_token (s : Str) :
    map_function s = ((splitWs s).map fun t => (normalizeTok t, 1)) ∧
      ∀ t ∈ splitWs s, (∀ c ∈ t, ispunct c = true) → normalizeTok t = [] := by
  refine ⟨map_function_eq_map s, fun t _ hall => ?_⟩
  have hfil : t.filter (fun c => !ispunct c) = [] := by
    rw [List.filter_eq_nil_iff]
    intro c hc
    simp [hall c hc]
  simp [normalizeTok, hfil]

/-- Witness for the amended C2 at the concrete record `a -`. -/
theorem map_function_emits_every_token_witness :
    map_function ("a -".toList) =
      ((splitWs ("a -".toList)).map fun t => (normalizeTok t, 1)) :=
  (map_function_emits_every_token ("a -".toList)).1

/-- C8: the Mapper is deterministic — it is a mathematical function of its
input string only (the C++ `map_function` reads no state besides its
argument), so equal inputs give equal output sequences. -/
theorem map_function_deterministic (s t : Str) (h : s = t) :
    map_function s = map_function t := by
  rw [h]

/-- Witness for C8 at a concrete input. -/
theorem map_function_deterministic_witness :
    map_function ("Hello, hello!! HELLO".toList) =
      map_function ("Hello, hello!! HELLO".toList) :=
  map_function_deterministic ("Hello, hello!! HELLO".toList)
    ("Hello, hello!! HELLO".toList) rfl

/-- C4 (code bug recorded): when `std::thread::hardware_concurrency()`
resolves to 0 — a value the C++ standard permits — `main` neither coerces
the thread count to 1 nor fails: the spawn loop body never runs, no worker
processes any record, and the program prints an empty report and returns
0, silently losing the whole corpus. -/
theorem zero_threads_silent_empty_run :
    run_main input_data 0 = some [] ∧ main_ret = 0 :=
  ⟨rfl, rfl⟩

/-- C9 (code bug recorded): a worker handed the range `[0, 5)` over the
4-record corpus performs an unchecked `input_data[4]` access; C++ assigns
that read no defined result (undefined behavior, no assertion), which the
model renders as `none` — the code contains no fail-fast bounds check. -/
theorem map_worker_out_of_range_stuck :
    map_worker input_data [] 0 5 = none := by
  rfl

/-- C5 (corrected claim refuted as stated): with `R = 2` records and
`T = 3` workers, the trailing range is `[0, 2)` — it carries both records
— while the leading range is empty; the claim asserts the opposite
placement of the empty ranges. -/
theorem partition_small_R_counterexample :
    2 < 3 ∧ partEnd 2 3 2 - partStart 2 3 2 = 2 ∧
      partEnd 2 3 0 - partStart 2 3 0 = 0 := by
  refine ⟨by omega, ?_, ?_⟩ <;> simp [partStart, partEnd]

/-- C5 (amended): for `R < T` the block size `R / T` is 0, so the first
`T - 1` ranges are all the empty range `[0, 0)` and the last range is
`[0, R)`, carrying every record. -/
theorem partition_small_R_leading_empty (R T : Nat) (hT : 1 ≤ T) (hRT : R < T) :
    (∀ i, i + 1 < T → partStart R T i = 0 ∧ partEnd R T i = 0) ∧
      partStart R T (T - 1) = 0 ∧ partEnd R T (T - 1) = R := by
  have hq : R / T = 0 := Nat.div_eq_of_lt hRT
  refine ⟨fun i hi => ?_, ?_, ?_⟩
  · have hne : i ≠ T - 1 := by omega
    simp [partStart, partEnd, hq, hne]
  · simp [partStart, hq]
  · simp [partEnd]

/-- Witness for the amended C5 at `R = 2`, `T = 3`. -/
theorem partition_small_R_leading_empty_witness :
    partStart 2 3 (3 - 1) = 0 ∧ partEnd 2 3 (3 - 1) = 2 :=
  (partition_small_R_leading_empty 2 3 (by omega) (by omega)).2

/-- Unfolding of `strLt` on two nonempty strings. -/
lemma strLt_cons_iff (a b : Char) (as bs : Str) :
    strLt (a :: as) (b :: bs) = true ↔ a < b ∨ (a = b ∧ strLt as bs = true) := by
  by_cases h1 : a < b
  · simp [strLt, h1]
  · by_cases h2 : b < a
    · have hne : a ≠ b := by
        intro he
        subst he
        exact lt_irrefl a h2
      simp [strLt, h1, h2, hne]
    · have heq : a = b := le_antisymm (not_lt.1 h2) (not_lt.1 h1)
      simp [strLt, h1, h2, heq]

/-- `strLt` is irreflexive. -/
lemma strLt_irrefl (s : Str) : strLt s s = false := by
  induction s with
  | nil => rfl
  | cons c cs ih => simp [strLt, lt_irrefl, ih]

/-- Strictly smaller strings are distinct. -/
lemma strLt_ne {a b : Str} (h : strLt a b = true) : a ≠ b := by
  intro he
  subst he
  rw [strLt_irrefl] at h
  exact Bool.false_ne_true h

/-- `strLt` is transitive. -/
lemma strLt_trans : ∀ (a b c : Str),
    strLt a b = true → strLt b c = true → strLt a c = true := by
  intro a
  induction a with
  | nil =>
    intro b c h1 h2
    match b, c with
    | [], _ => simp [strLt] at h1
    | _ :: _, [] => simp [strLt] at h2
    | _ :: _, _ :: _ => simp [strLt]
  | cons a' as ih =>
    intro b c h1 h2
    match b, c with
    | [], _ => simp [strLt] at h1
    | _ :: _, [] => simp [strLt] at h2
    | b' :: bs, c' :: cs =>
      rw [strLt_cons_iff] at h1 h2 ⊢
      rcases h1 with h1 | ⟨he1, h1⟩
      · rcases h2 with h2 | ⟨he2, _⟩
        · exact Or.inl (lt_trans h1 h2)
        · exact Or.inl (he2 ▸ h1)
      · rcases h2 with h2 | ⟨he2, h2⟩
        · exact Or.inl (he1.symm ▸ h2)
        · exact Or.inr ⟨he1.trans he2, ih bs cs h1 h2⟩

/-- `strLt` is total: two strings are equal or comparable either way. -/
lemma strLt_total : ∀ (a b : Str),
    a = b ∨ strLt a b = true ∨ strLt b a = true := by
  intro a
  induction a with
  | nil =>
    intro b
    match b with
    | [] => exact Or.inl rfl
    | _ :: _ => exact Or.inr (Or.inl (by simp [strLt]))
  | cons a' as ih =>
    intro b
    match b with
    | [] => exact Or.inr (Or.inr (by simp [strLt]))
    | b' :: bs =>
      rcases lt_trichotomy a' b' with h | h | h
      · exact Or.inr (Or.inl ((strLt_cons_iff a' b' as bs).2 (Or.inl h)))
      · rcases ih bs with h2 | h2 | h2
        · exact Or.inl (by rw [h, h2])
        · exact Or.inr (Or.inl ((strLt_cons_iff a' b' as bs).2 (Or.inr ⟨h, h2⟩)))
        · exact Or.inr (Or.inr ((strLt_cons_iff b' a' bs as).2 (Or.inr ⟨h.symm, h2⟩)))
      · exact Or.inr (Or.inr ((strLt_cons_iff b' a' bs as).2 (Or.inl h)))

/-- Every key of `mapAppend m k v` is `k` or a key of `m`. -/
lemma mapAppend_mem_key : ∀ (m : Aggregate) (k : Str) (v : Int) (e : Str × List Int),
    e ∈ mapAppend m k v → e.1 = k ∨ e.1 ∈ m.map Prod.fst := by
  intro m k v
  induction m with
  | nil =>
    intro e he
    simp only [mapAppend, List.mem_singleton] at he
    exact Or.inl (by rw [he])
  | cons hd tl ih =>
    obtain ⟨k', vs⟩ := hd
    intro e he
    by_cases h1 : k = k'
    · simp only [mapAppend, if_pos h1] at he
      rcases List.mem_cons.1 he with he | he
      · exact Or.inl (by rw [he, h1])
      · exact Or.inr (List.mem_map.2 ⟨e, List.mem_cons_of_mem _ he, rfl⟩)
    · by_cases h2 : strLt k k' = true
      · simp only [mapAppend, if_neg h1, if_pos h2] at he
        rcases List.mem_cons.1 he with he | he
        · exact Or.inl (by rw [he])
        · exact Or.inr (List.mem_map.2 ⟨e, he, rfl⟩)
      · simp only [mapAppend, if_neg h1, if_neg h2] at he
        rcases List.mem_cons.1 he with he | he
        · exact Or.inr (List.mem_map.2 ⟨e, by rw [he]; exact List.mem_cons_self _ _, rfl⟩)
        · rcases ih e he with hk | hin
          · exact Or.inl hk
          · rcases List.mem_map.1 hin with ⟨e', he', hfst⟩
            exact Or.inr (List.mem_map.2 ⟨e', List.mem_cons_of_mem _ he', hfst⟩)

/-- `mapAppend` preserves strict sortedness of the keys. -/
lemma mapAppend_pairwise (m : Aggregate) (k : Str) (v : Int)
    (h : m.Pairwise fun a b => strLt a.1 b.1 = true) :
    (mapAppend m k v).Pairwise fun a b => strLt a.1 b.1 = true := by
  induction m with
  | nil => simp [mapAppend]
  | cons hd tl ih =>
    obtain ⟨k', vs⟩ := hd
    rw [List.pairwise_cons] at h
    obtain ⟨hhead, htl⟩ := h
    by_cases h1 : k = k'
    · simp only [mapAppend, if_pos h1]
      rw [List.pairwise_cons]
      exact ⟨fun e he => hhead e he, htl⟩
    · by_cases h2 : strLt k k' = true
      · simp only [mapAppend, if_neg h1, if_pos h2]
        rw [List.pairwise_cons]
        constructor
        · intro e he
          rcases List.mem_cons.1 he with he | he
          · rw [he]
            exact h2
          · exact strLt_trans _ _ _ h2 (hhead e he)
        · exact List.pairwise_cons.2 ⟨hhead, htl⟩
      · have h3 : strLt k' k = true := by
          rcases strLt_total k k' with he | hlt | hgt
          · exact absurd he h1
          · exact absurd hlt h2
          · exact hgt
        simp only [mapAppend, if_neg h1, if_neg h2]
        rw [List.pairwise_cons]
        constructor
        · intro e he
          rcases mapAppend_mem_key tl k v e he with hk | hin
          · rw [hk]
            exact h3
          · rcases List.mem_map.1 hin with ⟨e', he', hfst⟩
            exact hfst ▸ hhead e' he'
        · exact ih htl

/-- A key strictly below every key of the aggregate is absent. -/
lemma aggLookup_eq_nil (m : Aggregate) (k : Str)
    (h : ∀ e ∈ m, strLt k e.1 = true) : aggLookup m k = [] := by
  induction m with
  | nil => rfl
  | cons hd tl ih =>
    obtain ⟨k', vs⟩ := hd
    have hne : k ≠ k' := strLt_ne (h (k', vs) (List.mem_cons_self _ _))
    simp only [aggLookup, if_neg hne]
    exact ih fun e he => h e (List.mem_cons_of_mem _ he)

/-- Effect of one `mapAppend` on lookups, on a sorted aggregate: the
appended key's vector grows by the value at its end, all other keys keep
their vectors. -/
lemma aggLookup_mapAppend (m : Aggregate) (k : Str) (v : Int) (q : Str)
    (h : m.Pairwise fun a b => strLt a.1 b.1 = true) :
    aggLookup (mapAppend m k v) q =
      if q = k then aggLookup m k ++ [v] else aggLookup m q := by
  induction m with
  | nil =>
    by_cases hq : q = k <;> simp [mapAppend, aggLookup, hq]
  | cons hd tl ih =>
    obtain ⟨k', vs⟩ := hd
    rw [List.pairwise_cons] at h
    obtain ⟨hhead, htl⟩ := h
    by_cases h1 : k = k'
    · subst h1
      simp only [mapAppend, if_pos rfl]
      by_cases hq : q = k <;> simp [aggLookup, hq]
    · by_cases h2 : strLt k k' = true
      · have hnil : aggLookup ((k', vs) :: tl) k = [] := by
          apply aggLookup_eq_nil
          intro e he
          rcases List.mem_cons.1 he with he | he
          · rw [he]
            exact h2
          · exact strLt_trans _ _ _ h2 (hhead e he)
        have hnil' : aggLookup tl k = [] := by
          simpa [aggLookup, h1] using hnil
        simp only [mapAppend, if_neg h1, if_pos h2]
        by_cases hq : q = k
        · simp [aggLookup, hq, h1, hnil']
        · simp [aggLookup, hq]
      · simp only [mapAppend, if_neg h1, if_neg h2]
        have h1' : ¬k = k' := h1
        by_cases hq : q = k'
        · have hqk : ¬q = k := by
            rw [hq]
            intro he
            exact h1 he.symm
          have hk'k : ¬k' = k := fun he => h1 he.symm
          simp [aggLookup, hq, hqk, hk'k]
        · simp only [aggLookup, if_neg hq]
          rw [ih htl]
          by_cases hqk : q = k
          · have : ¬k = k' := h1
            simp [hqk, aggLookup, this]
          · simp [hqk, aggLookup, hq]

/-- `appendPairs` preserves strict sortedness of the keys. -/
lemma appendPairs_pairwise (ps : List (Str × Int)) : ∀ (m : Aggregate),
    (m.Pairwise fun a b => strLt a.1 b.1 = true) →
      (appendPairs m ps).Pairwise fun a b => strLt a.1 b.1 = true := by
  induction ps with
  | nil => intro m h; exact h
  | cons p ps ih => intro m h; exact ih _ (mapAppend_pairwise _ _ _ h)

/-- Lookup after a batch of appends: the original vector followed by the
appended values whose key matches, in order. -/
lemma aggLookup_appendPairs (ps : List (Str × Int)) : ∀ (m : Aggregate) (q : Str),
    (m.Pairwise fun a b => strLt a.1 b.1 = true) →
      aggLookup (appendPairs m ps) q =
        aggLookup m q ++ (ps.filter fun p => p.1 == q).map Prod.snd := by
  induction ps with
  | nil => intro m q _; simp [appendPairs]
  | cons p ps ih =>
    intro m q h
    have step : appendPairs m (p :: ps) = appendPairs (mapAppend m p.1 p.2) ps := rfl
    rw [step, ih _ q (mapAppend_pairwise _ _ _ h), aggLookup_mapAppend _ _ _ _ h]
    by_cases hq : q = p.1
    · have hb : (p.1 == q) = true := by
        rw [hq]
        exact beq_self_eq_true _
      simp [List.filter_cons, hb, hq]
    · have hb : (p.1 == q) = false := by
        rw [beq_eq_false_iff_ne]
        intro he
        exact hq he.symm
      simp [List.filter_cons, hb, hq]

/-- The last worker's range ends at the record count. -/
lemma partEnd_last (R T : Nat) : partEnd R T (T - 1) = R := by
  simp [partEnd]

/-- Every other worker's range ends at the next block boundary. -/
lemma partEnd_mid (R T i : Nat) (h : i ≠ T - 1) :
    partEnd R T i = (i + 1) * (R / T) := by
  simp [partEnd, h]

/-- `appendPairs` over a concatenation of emission lists. -/
lemma appendPairs_append (m : Aggregate) (xs ys : List (Str × Int)) :
    appendPairs m (xs ++ ys) = appendPairs (appendPairs m xs) ys :=
  List.foldl_append _ _ _ _

/-- In-bounds behaviour of the worker loop: with `fuel` iterations left at
index `i`, it appends the emissions of records `i, …, i + fuel - 1`. -/
lemma map_workerGo_spec (d : List Str) :
    ∀ (fuel i : Nat) (m : Aggregate), i + fuel ≤ d.length →
      map_workerGo d fuel i m =
        some (appendPairs m (((d.drop i).take fuel).flatMap map_function)) := by
  intro fuel
  induction fuel with
  | zero => intro i m _; simp [map_workerGo, appendPairs]
  | succ n ih =>
    intro i m h
    have hi : i < d.length := by omega
    have hget : d[i]? = some d[i] := List.getElem?_eq_getElem hi
    have hdrop : d.drop i = d[i] :: d.drop (i + 1) := (List.getElem_cons_drop d i hi).symm
    simp only [map_workerGo, hget]
    rw [ih (i + 1) _ (by omega)]
    rw [hdrop, List.take_succ_cons, List.flatMap_cons, appendPairs_append]

/-- In-bounds behaviour of `map_worker` over a range `[a, b)`. -/
lemma map_worker_spec (d : List Str) (m : Aggregate) (a b : Nat)
    (hab : a ≤ b) (hb : b ≤ d.length) :
    map_worker d m a b =
      some (appendPairs m (((d.drop a).take (b - a)).flatMap map_function)) :=
  map_workerGo_spec d (b - a) a m (by omega)

/-- After the first `k ≤ T` workers of the canonical schedule, the
aggregate holds exactly the emissions of the first `partEnd`-boundary
records: the ranges are consecutive, so the processed prefix is
`[0, k * (R / T))`, or all of `[0, R)` once the last worker has run. -/
lemma runWorkers_partial (d : List Str) (T : Nat) (hT : 1 ≤ T) :
    ∀ k, k ≤ T →
      (List.range k).foldl
        (fun acc i =>
          acc.bind fun m =>
            map_worker d m (partStart d.length T i) (partEnd d.length T i))
        (some []) =
      some (appendPairs []
        ((d.take (if k = T then d.length else k * (d.length / T))).flatMap
          map_function)) := by
  have hTq : T * (d.length / T) ≤ d.length := by
    have h := Nat.div_mul_le_self d.length T
    calc T * (d.length / T) = d.length / T * T := Nat.mul_comm _ _
      _ ≤ d.length := h
  intro k
  induction k with
  | zero =>
    intro _
    have h0 : ¬(0 = T) := by omega
    simp [h0, appendPairs]
  | succ k ih =>
    intro hk1
    have hkne : ¬(k = T) := by omega
    rw [List.range_succ, List.foldl_append, ih (by omega)]
    simp only [List.foldl_cons, List.foldl_nil, Option.some_bind]
    have hb : partEnd d.length T k =
        (if k + 1 = T then d.length else (k + 1) * (d.length / T)) := by
      by_cases h : k = T - 1
      · have h' : k + 1 = T := by omega
        rw [if_pos h', h, partEnd_last]
      · have h' : ¬(k + 1 = T) := by omega
        rw [partEnd_mid _ _ _ h, if_neg h']
    have hab : k * (d.length / T) ≤ partEnd d.length T k := by
      rw [hb]
      by_cases h : k + 1 = T
      · simp only [if_pos h]
        calc k * (d.length / T) ≤ T * (d.length / T) :=
              mul_le_mul_right' (by omega) _
          _ ≤ d.length := hTq
      · simp only [if_neg h]
        exact mul_le_mul_right' (by omega) _
    have hbL : partEnd d.length T k ≤ d.length := by
      rw [hb]
      by_cases h : k + 1 = T
      · simp [h]
      · simp only [if_neg h]
        calc (k + 1) * (d.length / T) ≤ T * (d.length / T) :=
              mul_le_mul_right' (by omega) _
          _ ≤ d.length := hTq
    rw [if_neg hkne]
    simp only [partStart]
    rw [map_worker_spec d _ _ _ hab hbL]
    rw [← appendPairs_append, ← List.flatMap_append, ← List.take_add]
    have hsum : k * (d.length / T) + (partEnd d.length T k - k * (d.length / T)) =
        partEnd d.length T k := Nat.add_sub_cancel' hab
    rw [hsum, hb]

/-- The full canonical map phase over `T ≥ 1` workers appends exactly the
emissions of every record, in order: no record is lost or duplicated. -/
lemma runWorkers_spec (d : List Str) (T : Nat) (hT : 1 ≤ T) :
    runWorkers d T = some (appendPairs [] (d.flatMap map_function)) := by
  have h := runWorkers_partial d T hT T le_rfl
  rw [if_pos (rfl : T = T), List.take_length] at h
  exact h

/-- `reduce_function` is list summation. -/
lemma reduce_function_eq_sum (l : List Int) : reduce_function l = l.sum := by
  simp [reduce_function, List.sum_eq_foldl]

/-- Summing a constant-1 list counts its elements. -/
lemma reduce_function_ones {α : Type} (l : List α) :
    reduce_function (l.map fun _ => (1 : Int)) = (l.length : Int) := by
  have h : ∀ (c : Int) (l' : List α),
      (l'.map fun _ => (1 : Int)).foldl (fun a b => a + b) c = c + l'.length := by
    intro c l'
    induction l' generalizing c with
    | nil => simp
    | cons x xs ih =>
      simp only [List.map_cons, List.foldl_cons, ih, List.length_cons]
      push_cast
      ring
  simpa [reduce_function] using h 0 l

/-- Looking up the reduced map is reducing the looked-up vector (an absent
key yields `0`, the sum of the empty vector). -/
lemma finLookup_reducePhase (m : Aggregate) (q : Str) :
    finLookup (reducePhase m) q = reduce_function (aggLookup m q) := by
  induction m with
  | nil => simp [reducePhase, finLookup, aggLookup, reduce_function]
  | cons hd tl ih =>
    obtain ⟨k', vs⟩ := hd
    simp only [reducePhase] at ih ⊢
    by_cases hq : q = k' <;> simp [List.map_cons, finLookup, aggLookup, hq, ih]

/-- The concatenated emissions of a corpus: one `(normalizeTok t, 1)` pair
per token of each record, in order. -/
lemma flatMap_map_function (d : List Str) :
    d.flatMap map_function = (d.flatMap splitWs).map fun t => (normalizeTok t, 1) := by
  induction d with
  | nil => rfl
  | cons r d ih => simp [List.flatMap_cons, map_function_eq_map, ih]

/-- The emitted values whose key is `w` are one `1` per token of the
corpus normalizing to `w`. -/
lemma emissions_filter (d : List Str) (w : Str) :
    ((d.flatMap map_function).filter fun p => p.1 == w).map Prod.snd =
      ((d.flatMap splitWs).filter fun t => normalizeTok t == w).map fun _ => (1 : Int) := by
  rw [flatMap_map_function, List.filter_map, List.map_map]
  rfl

/-- After a successful map phase, the vector stored for `w` is one `1` per
occurrence of `w` in the corpus. -/
lemma runWorkers_lookup (d : List Str) (T : Nat) (hT : 1 ≤ T) (m : Aggregate)
    (hrun : runWorkers d T = some m) (w : Str) :
    aggLookup m w =
      ((d.flatMap splitWs).filter fun t => normalizeTok t == w).map fun _ => (1 : Int) := by
  have hspec := runWorkers_spec d T hT
  rw [hrun] at hspec
  have hm : m = appendPairs [] (d.flatMap map_function) := Option.some.inj hspec
  subst hm
  rw [aggLookup_appendPairs _ _ _ List.Pairwise.nil]
  simp only [aggLookup, List.nil_append]
  exact emissions_filter d w

/-- The intermediate aggregate produced by the map phase is strictly
sorted by key, as a `std::map` is. -/
lemma runWorkers_sorted (d : List Str) (T : Nat) (hT : 1 ≤ T) (m : Aggregate)
    (hrun : runWorkers d T = some m) :
    m.Pairwise fun a b => strLt a.1 b.1 = true := by
  have hspec := runWorkers_spec d T hT
  rw [hrun] at hspec
  have hm : m = appendPairs [] (d.flatMap map_function) := Option.some.inj hspec
  subst hm
  exact appendPairs_pairwise _ _ List.Pairwise.nil

/-- C1: for every corpus, every thread count `T ≥ 1` and every word `w`,
the final aggregate of a completed run maps `w` to exactly the number of
case-insensitive, punctuation-stripped occurrences of `w` across all
input records — no occurrence lost or duplicated, however the records
were partitioned among the `T` workers. -/
theorem mapreduce_sum_invariant (d : List Str) (T : Nat) (w : Str) (hT : 1 ≤ T)
    (final : List (Str × Int)) (hrun : run_main d T = some final) :
    finLookup final w = (occurrences w d : Int) := by
  simp only [run_main] at hrun
  obtain ⟨m, hm, hfin⟩ := Option.map_eq_some'.1 hrun
  subst hfin
  rw [finLookup_reducePhase, runWorkers_lookup d T hT m hm w, reduce_function_ones]
  rfl

/-- Witness for C1 on the one-record corpus `a A.` with `T = 1`: the word
`a` is counted twice. -/
theorem mapreduce_sum_invariant_witness :
    finLookup [((['a'] : Str), (2 : Int))] (['a']) =
      (occurrences (['a']) [("a A.".toList)] : Int) :=
  mapreduce_sum_invariant [("a A.".toList)] 1 (['a']) (by omega)
    [((['a'] : Str), (2 : Int))] (by rfl)

/-- C10: after the map phase every integer stored in the intermediate
aggregate equals 1 (the Mapper emits only the count 1 and workers append
the pairs unchanged), so the reduced value of every word equals the length
of that word's intermediate vector. -/
theorem intermediate_counts_all_one (d : List Str) (T : Nat) (w : Str) (hT : 1 ≤ T)
    (m : Aggregate) (hrun : runWorkers d T = some m) :
    (∀ v ∈ aggLookup m w, v = 1) ∧
      finLookup (reducePhase m) w = ((aggLookup m w).length : Int) := by
  have hl := runWorkers_lookup d T hT m hrun w
  constructor
  · intro v hv
    rw [hl] at hv
    rcases List.mem_map.1 hv with ⟨t, _, hts⟩
    exact hts.symm
  · simp only [finLookup_reducePhase, hl, reduce_function_ones, List.length_map]

/-- Witness for C10 on the one-record corpus `a a` with `T = 1`. -/
theorem intermediate_counts_all_one_witness :
    finLookup (reducePhase [((['a'] : Str), ([1, 1] : List Int))]) (['a']) =
      ((aggLookup [((['a'] : Str), ([1, 1] : List Int))] (['a'])).length : Int) :=
  (intermediate_counts_all_one [("a a".toList)] 1 (['a']) (by omega)
    [((['a'] : Str), ([1, 1] : List Int))] (by rfl)).2

/-- C6: the final aggregate is insensitive to the interleaving of the
per-partition appends: reducing the aggregate built from any permutation
of the canonical emission sequence yields the same word-to-total mapping,
because the reduction is a sum, which is commutative and associative. -/
theorem final_aggregate_perm_invariant (d : List Str) (l : List (Str × Int))
    (hperm : (d.flatMap map_function).Perm l) (w : Str) :
    finLookup (reducePhase (appendPairs [] l)) w =
      finLookup (reducePhase (appendPairs [] (d.flatMap map_function))) w := by
  rw [finLookup_reducePhase, finLookup_reducePhase,
    aggLookup_appendPairs _ _ _ List.Pairwise.nil,
    aggLookup_appendPairs _ _ _ List.Pairwise.nil]
  simp only [aggLookup, List.nil_append]
  rw [reduce_function_eq_sum, reduce_function_eq_sum]
  exact ((hperm.filter _).map Prod.snd).sum_eq.symm

/-- Witness for C6: reversing the two emissions of the record `b a` leaves
the reduced count of `a` unchanged. -/
theorem final_aggregate_perm_invariant_witness :
    finLookup
        (reducePhase (appendPairs [] [((['a'] : Str), (1 : Int)), ((['b'] : Str), (1 : Int))]))
        (['a']) =
      finLookup
        (reducePhase (appendPairs [] (([("b a".toList)] : List Str).flatMap map_function)))
        (['a']) :=
  final_aggregate_perm_invariant [("b a".toList)]
    [((['a'] : Str), (1 : Int)), ((['b'] : Str), (1 : Int))] (by decide) (['a'])

/-- C7: a completed run of `main` over its hardcoded corpus produces a
final map whose entries are strictly sorted lexicographically by word
(hence one entry per distinct word), emits one line `word: count` per
entry in that order, and returns the success status 0. -/
theorem report_sorted_success (T : Nat) (hT : 1 ≤ T)
    (final : List (Str × Int)) (hrun : run_main input_data T = some final) :
    (final.Pairwise fun a b => strLt a.1 b.1 = true) ∧
      (final.Pairwise fun a b => a.1 ≠ b.1) ∧
      report final = (final.map fun e => e.1 ++ ':' :: ' ' :: intToChars e.2) ∧
      main_ret = 0 := by
  simp only [run_main] at hrun
  obtain ⟨m, hm, hfin⟩ := Option.map_eq_some'.1 hrun
  subst hfin
  have hsort := runWorkers_sorted input_data T hT m hm
  have hsort2 : (reducePhase m).Pairwise fun a b => strLt a.1 b.1 = true := by
    simp only [reducePhase]
    exact List.pairwise_map.2 hsort
  refine ⟨hsort2, hsort2.imp ?_, ?_, rfl⟩
  · intro a b hab
    exact strLt_ne hab
  · simpa [report] using
      foldl_push_eq_map (fun e : Str × Int => e.1 ++ ':' :: ' ' :: intToChars e.2)
        (reducePhase m) []

/-- Witness for C7: the concrete run with `T = 1` on the hardcoded corpus,
whose final map is the sorted word count of the four sentences. -/
theorem report_sorted_success_witness :
    report
        [(("a".toList), (2 : Int)), (("blue".toList), 1), (("ends".toList), 2),
         (("is".toList), 4), (("one".toList), 1), (("red".toList), 1),
         (("sentence".toList), 4), (("that".toList), 2), (("this".toList), 4),
         (("two".toList), 1), (("with".toList), 2)] =
      (([(("a".toList), (2 : Int)), (("blue".toList), 1), (("ends".toList), 2),
         (("is".toList), 4), (("one".toList), 1), (("red".toList), 1),
         (("sentence".toList), 4), (("that".toList), 2), (("this".toList), 4),
         (("two".toList), 1), (("with".toList), 2)]).map
        fun e => e.1 ++ ':' :: ' ' :: intToChars e.2) ∧
      main_ret = 0 :=
  (report_sorted_success 1 (by omega)
    [(("a".toList), (2 : Int)), (("blue".toList), 1), (("ends".toList), 2),
     (("is".toList), 4), (("one".toList), 1), (("red".toList), 1),
     (("sentence".toList), 4), (("that".toList), 2), (("this".toList), 4),
     (("two".toList), 1), (("with".toList), 2)] (by rfl)).2.2

/-- Two distinct worker ranges cannot both contain a record index: the
lower one ends at or before the higher one starts. -/
lemma partition_unique_aux (R T j i1 i2 : Nat) (h12 : i1 < i2) (h2T : i2 < T)
    (he1 : j < partEnd R T i1) (hs2 : partStart R T i2 ≤ j) : False := by
  have h1ne : i1 ≠ T - 1 := by omega
  rw [partEnd_mid _ _ _ h1ne] at he1
  simp only [partStart] at hs2
  have hle : (i1 + 1) * (R / T) ≤ i2 * (R / T) := mul_le_mul_right' (by omega) _
  exact lt_irrefl j (lt_of_lt_of_le (lt_of_lt_of_le he1 hle) hs2)

/-- C3: for every record count `R ≥ 0` and worker count `T ≥ 1`, the `T`
computed ranges `[partStart i, partEnd i)` partition `[0, R)` exactly:
every record index lies in exactly one range, every range stays inside
`[0, R)`, each of the first `T - 1` ranges has size `R / T`, and the last
range absorbs the remainder (size at least `R / T`) — including the cases
`R = 0` and `T > R`. -/
theorem partition_exact_cover (R T : Nat) (hT : 1 ≤ T) :
    (∀ j, j < R → ∃! i, i < T ∧ partStart R T i ≤ j ∧ j < partEnd R T i) ∧
      (∀ i, i < T → partStart R T i ≤ partEnd R T i ∧ partEnd R T i ≤ R) ∧
      (∀ i, i + 1 < T → partEnd R T i - partStart R T i = R / T) ∧
      R / T ≤ partEnd R T (T - 1) - partStart R T (T - 1) := by
  have hTq : T * (R / T) ≤ R := by
    have h := Nat.div_mul_le_self R T
    calc T * (R / T) = R / T * T := Nat.mul_comm _ _
      _ ≤ R := h
  refine ⟨?_, ?_, ?_, ?_⟩
  · intro j hj
    by_cases hc : j < (T - 1) * (R / T)
    · have hq0 : 0 < R / T := by
        rcases Nat.eq_zero_or_pos (R / T) with h0 | h0
        · rw [h0, Nat.mul_zero] at hc
          exact absurd hc (Nat.not_lt_zero j)
        · exact h0
      have hiT : j / (R / T) < T - 1 := (Nat.div_lt_iff_lt_mul hq0).2 hc
      have hiT' : j / (R / T) < T := lt_of_lt_of_le hiT (Nat.sub_le T 1)
      have hne : j / (R / T) ≠ T - 1 := ne_of_lt hiT
      have hstart : partStart R T (j / (R / T)) ≤ j := Nat.div_mul_le_self j (R / T)
      have hend : j < partEnd R T (j / (R / T)) := by
        rw [partEnd_mid _ _ _ hne]
        have hdm := Nat.div_add_mod j (R / T)
        have hml := Nat.mod_lt j hq0
        calc j = R / T * (j / (R / T)) + j % (R / T) := hdm.symm
          _ < R / T * (j / (R / T)) + R / T := Nat.add_lt_add_left hml _
          _ = (j / (R / T) + 1) * (R / T) := by ring
      refine ⟨j / (R / T), ⟨hiT', hstart, hend⟩, ?_⟩
      rintro y ⟨hyT, hys, hye⟩
      rcases lt_trichotomy y (j / (R / T)) with hlt | heq | hgt
      · exact (partition_unique_aux R T j y (j / (R / T)) hlt hiT' hye hstart).elim
      · exact heq
      · exact (partition_unique_aux R T j (j / (R / T)) y hgt hyT hend hys).elim
    · have hstart : partStart R T (T - 1) ≤ j := by
        simp only [partStart]
        exact Nat.le_of_not_lt hc
      have hend : j < partEnd R T (T - 1) := by
        rw [partEnd_last]
        exact hj
      refine ⟨T - 1, ⟨by omega, hstart, hend⟩, ?_⟩
      rintro y ⟨hyT, hys, hye⟩
      rcases lt_trichotomy y (T - 1) with hlt | heq | hgt
      · exact (partition_unique_aux R T j y (T - 1) hlt (by omega) hye hstart).elim
      · exact heq
      · omega
  · intro i hiT
    by_cases hi : i = T - 1
    · subst hi
      refine ⟨?_, ?_⟩
      · rw [partEnd_last]
        simp only [partStart]
        have h1 := mul_le_mul_right' (show T - 1 ≤ T from Nat.sub_le T 1) (R / T)
        exact le_trans h1 hTq
      · rw [partEnd_last]
    · have h1 : i * (R / T) ≤ (i + 1) * (R / T) := mul_le_mul_right' (by omega) _
      have h2 : (i + 1) * (R / T) ≤ T * (R / T) := mul_le_mul_right' (by omega) _
      refine ⟨?_, ?_⟩
      · rw [partEnd_mid _ _ _ hi]
        simp only [partStart]
        exact h1
      · rw [partEnd_mid _ _ _ hi]
        exact le_trans h2 hTq
  · intro i hi
    have hne : i ≠ T - 1 := by omega
    rw [partEnd_mid _ _ _ hne]
    simp only [partStart, Nat.succ_mul]
    exact Nat.add_sub_cancel_left _ _
  · rw [partEnd_last]
    simp only [partStart]
    have h1 : (T - 1) * (R / T) + R / T = T * (R / T) := by
      have hT1 : T - 1 + 1 = T := by omega
      calc (T - 1) * (R / T) + R / T = (T - 1 + 1) * (R / T) := by ring
        _ = T * (R / T) := by rw [hT1]
    refine Nat.le_sub_of_add_le ?_
    rw [Nat.add_comm]
    exact le_of_eq_of_le h1 hTq

/-- Witness for C3 at `R = 5`, `T = 2`: the first range has size
`⌊5 / 2⌋ = 2`. -/
theorem partition_exact_cover_witness :
    partEnd 5 2 0 - partStart 5 2 0 = 5 / 2 :=
  (partition_exact_cover 5 2 (by omega)).2.2.1 0 (by omega)

end MapReduce
